import Mathlib

/-!
Verification development for a persistent B+-tree index
(`src/types/node.rs`, `src/types/file_store.rs`,
`src/types/second_chance_cache.rs`, `src/types/node_store.rs`).

Machine integers of the source (`SearchKey = i64`, `NodeIdent = i32`,
`chances : u8`) are modelled as `Int`/`Nat`; fixed-size arrays `[T; S]`
are modelled as `List Int` together with length hypotheses; slice-length
panics of `copy_from_slice` are modelled by `Option`-valued functions
returning `none` on the panicking length mismatch.
-/

namespace BTreeRs

/-- Result of Rust's `slice::binary_search`: `found i` for `Ok(i)`,
`notFound u` for `Err(u)` (insertion position). -/
inductive BSearchResult where
  | found (i : Nat)
  | notFound (u : Nat)
  deriving DecidableEq, Repr

/-- Core loop of Rust `slice::binary_search` on the window `[lo, hi)`
of the list `l` (elements fetched with default `0` out of range, which
never happens for the in-range windows the callers use).  `fuel` bounds
the iteration count; `hi - lo` halves each round, so the initial fuel
`l.length` below is never exhausted. -/
def binarySearchGo (l : List Int) (key : Int) : Nat → Nat → Nat → BSearchResult
  | 0, lo, _ => .notFound lo
  | fuel + 1, lo, hi =>
    if lo < hi then
      let mid := (lo + hi) / 2
      let x := l.getD mid 0
      if x < key then binarySearchGo l key fuel (mid + 1) hi
      else if key < x then binarySearchGo l key fuel lo mid
      else .found mid
    else .notFound lo

/-- Rust `slice::binary_search(&key)` over a whole list. -/
def binarySearch (l : List Int) (key : Int) : BSearchResult :=
  binarySearchGo l key l.length 0 l.length

/-- The swapping loop of `insert_into_array` (src/types/node.rs:97-107),
run over the suffix of the slice starting at the insertion index:
swap the hanging value into each slot; if the displaced value equals
`empty`, stop with no overflow, otherwise keep the displaced value
hanging; if the list is exhausted the hanging value is the overflow. -/
def cascade (l : List Int) (hanging empty : Int) : List Int × Option Int :=
  match l with
  | [] => ([], some hanging)
  | x :: xs =>
    if x = empty then (hanging :: xs, none)
    else
      let r := cascade xs x empty
      (hanging :: r.1, r.2)

/-- `insert_into_array` (src/types/node.rs:87-110): inserts `key` at
`index` into the slice, cascade-shifting the following elements; returns
the updated slice and `some overflow` when the loop ran off the end. -/
def insertIntoArray (l : List Int) (index : Nat) (key empty : Int) :
    List Int × Option Int :=
  let r := cascade (l.drop index) key empty
  (l.take index ++ r.1, r.2)

/-- `InnerNode<T, S>` (src/types/node.rs:12-22); the `S`-element arrays
become lists, `phantom` is dropped. -/
structure InnerN where
  separators : List Int
  children : List Int
  size : Nat
  deriving DecidableEq, Repr

/-- `LeafNode<T, S>` (src/types/node.rs:25-30). -/
structure LeafN where
  keys : List Int
  data_blocks : List Int
  size : Nat
  deriving DecidableEq, Repr

/-- `NodeInstance<T, S>` (src/types/node.rs:54-61). -/
inductive NodeInstanceM where
  | inner (n : InnerN)
  | leaf (n : LeafN)
  deriving DecidableEq, Repr

/-- `LeafNode::split` (src/types/node.rs:325-354).  `S` is the fanout;
the caller guarantees `n.keys.length = S` and `n.data_blocks.length = S`.
Returns `none` where the Rust code panics: the index `right_seps_slice[0]`
is out of bounds (`S / 2 ≥ S`), or `copy_from_slice` receives slices of
different lengths (`S - S / 2 ≠ S / 2`, i.e. odd `S`).  On success the
result is `(root_sep, right_seps, right_children, left)` where `left` is
the mutated `self`. -/
def leafSplit (S : Nat) (n : LeafN) (largestKey largestValue : Int) :
    Option (Int × List Int × List Int × LeafN) :=
  let m := S / 2
  if m < S then
    if S - m = m then
      let rightSepsSlice := (n.keys.drop m).take (S - m)
      let rightChildrenSlice := (n.data_blocks.drop m).take (S - m)
      let rootSep := rightSepsSlice.getD 0 0
      let rightSeps := rightSepsSlice ++ largestKey ::
        List.replicate (S - m - 1) 0
      let rightChildren := rightChildrenSlice ++ largestValue ::
        List.replicate (S - m - 1) 0
      let left : LeafN :=
        { keys := n.keys.take m ++ List.replicate (S - m) 0
          data_blocks := n.data_blocks.take m ++ List.replicate (S - m) 0
          size := m }
      some (rootSep, rightSeps, rightChildren, left)
    else none
  else none

/-- `InnerNode::split` (src/types/node.rs:212-242).  Returns `none`
where the Rust code panics: empty `right_seps_slice` (needs
`S / 2 - 1 < S - 1`), zero `target_size` (the slice bound `S / 2 - 1`
underflows at `S < 2`), or the `children` `copy_from_slice` length
mismatch (`S - S / 2 ≠ S / 2`, i.e. odd `S`).  The separators copy
`right_seps[0..m-1] = right_seps_slice[1..m]` is always length-matched.
The left node's `fill(0)` runs over `separators[m-1..S-1]` only
(node.rs:220, 237), so separator slot `S - 1` keeps its old value. -/
def innerSplit (S : Nat) (n : InnerN) (largestKey largestValue : Int) :
    Option (Int × List Int × List Int × InnerN) :=
  let m := S / 2
  if 1 ≤ m ∧ m < S then
    if S - m = m then
      let rightSepsSlice := (n.separators.drop (m - 1)).take (S - m)
      let rightChildrenSlice := (n.children.drop m).take (S - m)
      let rootSep := rightSepsSlice.getD 0 0
      let rightSeps := (rightSepsSlice.drop 1).take (m - 1) ++
        largestKey :: List.replicate (S - m) 0
      let rightChildren := rightChildrenSlice ++ largestValue ::
        List.replicate (S - m - 1) 0
      let left : InnerN :=
        { separators := n.separators.take (m - 1) ++
            List.replicate ((S - 1) - (m - 1)) 0 ++ n.separators.drop (S - 1)
          children := n.children.take m ++ List.replicate (S - m) 0
          size := m - 1 }
      some (rootSep, rightSeps, rightChildren, left)
    else none
  else none

/-- `NodeStoreError` (src/types/node_store.rs:10-14). -/
inductive NodeStoreErrorM where
  | invalidReference
  | writeFailed
  | readFailed
  deriving DecidableEq, Repr

/-- `InsertionResult<T, S>` (src/types/node.rs:78-84); `PhantomData` is
dropped from `NodeOverflow`. -/
inductive InsResM where
  | ok
  | nodeOverflow (sep ident : Int)
  | error (msg : String)
  | insertError (e : NodeStoreErrorM)
  | duplicateKey
  deriving DecidableEq, Repr

/-- The in-memory node store
`(HashMap<NodeIdent, InnerNode>, HashMap<NodeIdent, LeafNode>, NodeIdent,
NodeIdent)` (src/types/node_store.rs:28-34), with the hash maps as
association lists. -/
structure StoreM where
  inners : List (Int × InnerN)
  leaves : List (Int × LeafN)
  ctrInner : Int
  ctrLeaf : Int
  deriving DecidableEq, Repr

/-- Association-list lookup (`HashMap::get`). -/
def alookup {κ α : Type} [DecidableEq κ] : List (κ × α) → κ → Option α
  | [], _ => none
  | (k0, v0) :: rest, k => if k0 = k then some v0 else alookup rest k

/-- Association-list insert (`HashMap::insert`): replaces the first
binding of the key, appends when absent.  Also models in-place mutation
through `&mut` handles, whose key is always present. -/
def ainsert {κ α : Type} [DecidableEq κ] : List (κ × α) → κ → α → List (κ × α)
  | [], k, v => [(k, v)]
  | (k0, v0) :: rest, k, v =>
    if k0 = k then (k, v) :: rest else (k0, v0) :: ainsert rest k v

/-- Association-list removal (`HashMap::remove`): drops the first
binding of the key. -/
def aerase {κ α : Type} [DecidableEq κ] : List (κ × α) → κ → List (κ × α)
  | [], _ => []
  | (k0, v0) :: rest, k =>
    if k0 = k then rest else (k0, v0) :: aerase rest k

/-- `NodeStore::get_node` for the in-memory store
(src/types/node_store.rs:39-54): negative identifiers are inner nodes
keyed by `-ident`, non-negative ones leaves keyed by `ident`. -/
def getNodeStore (s : StoreM) (ident : Int) : Option NodeInstanceM :=
  if ident < 0 then (alookup s.inners (-ident)).map .inner
  else (alookup s.leaves ident).map .leaf

/-- `NodeStore::store_node` for the in-memory store
(src/types/node_store.rs:56-72): bump the matching counter, insert, and
return the signed identifier (negative for inner nodes). -/
def storeNodeM (s : StoreM) (n : NodeInstanceM) : Int × StoreM :=
  match n with
  | .inner i =>
    let c := s.ctrInner + 1
    (-c, { s with ctrInner := c, inners := ainsert s.inners c i })
  | .leaf l =>
    let c := s.ctrLeaf + 1
    (c, { s with ctrLeaf := c, leaves := ainsert s.leaves c l })

/-- Node-local outcome of `LeafNode::insert` before any store write. -/
inductive LeafLocalRes where
  | dup
  | noSplit (n1 : LeafN)
  | overflowSplit (left : LeafN) (rootSep : Int) (right : LeafN)
  | mismatch (n1 : LeafN) (msg : String)
  | panicked
  deriving DecidableEq, Repr

/-- Node-local outcome of the post-recursion fixup of
`InnerNode::insert` before any store write. -/
inductive InnerLocalRes where
  | noSplit (n1 : InnerN)
  | overflowSplit (left : InnerN) (rootSep : Int) (right : InnerN)
  | mismatch (n1 : InnerN) (msg : String)
  | panicked
  deriving DecidableEq, Repr

/-- The node-local part of `LeafNode::insert`
(src/types/node.rs:279-315): binary-search the live keys; on a miss at
`u`, cascade `key` into `keys[0..S]` and the literal `10` into
`data_blocks[0..S]` (the `data` argument is ignored, matching `_data`
and the `TODO` at src/types/node.rs:288), bump `size`, and split on a
double overflow; the freshly built right leaf gets `size = S / 2 + 1`
(src/types/node.rs:313). -/
def leafInsertLocal (S : Nat) (n : LeafN) (key _data : Int) : LeafLocalRes :=
  match binarySearch (n.keys.take n.size) key with
  | .found _ => .dup
  | .notFound u =>
    let rk := insertIntoArray (n.keys.take S) u key 0
    let rd := insertIntoArray (n.data_blocks.take S) u 10 0
    let n1 : LeafN := ⟨rk.1 ++ n.keys.drop S, rd.1 ++ n.data_blocks.drop S,
      n.size + 1⟩
    match rk.2, rd.2 with
    | none, none => .noSplit n1
    | some k, some v =>
      match leafSplit S n1 k v with
      | none => .panicked
      | some (rootSep, rSeps, rChildren, left) =>
        .overflowSplit left rootSep ⟨rSeps, rChildren, S / 2 + 1⟩
    | _, _ => .mismatch n1 "Mismatched overflow"

/-- The node-local fixup of `InnerNode::insert` after a child overflow
(src/types/node.rs:167-207): cascade the promoted separator into
`separators[0..S-1]` at `u` and the new child into `children[0..S]` at
`u + 1`, bump `size`, and split on a double overflow; the freshly built
right inner node gets `size = S / 2` (src/types/node.rs:200). -/
def innerFixupLocal (S : Nat) (cur : InnerN) (u : Nat)
    (newSep newIdent : Int) : InnerLocalRes :=
  let rk := insertIntoArray (cur.separators.take (S - 1)) u newSep 0
  let rc := insertIntoArray (cur.children.take S) (u + 1) newIdent 0
  let cur1 : InnerN := ⟨rk.1 ++ cur.separators.drop (S - 1),
    rc.1 ++ cur.children.drop S, cur.size + 1⟩
  match rk.2, rc.2 with
  | none, none => .noSplit cur1
  | some k, some v =>
    match innerSplit S cur1 k v with
    | none => .panicked
    | some (rootSep, rSeps, rChildren, left) =>
      .overflowSplit left rootSep ⟨rSeps, rChildren, S / 2⟩
  | _, _ => .mismatch cur1 "Mismatched overflow"

/-- `InnerNode::insert` / `LeafNode::insert`
(src/types/node.rs:117-210 and 264-323), dispatching on the sign of the
identifier exactly as the call sites do (src/types/node.rs:144-148).
`S` is the const generic fanout, `fuel` bounds the recursion depth
(`none` models non-termination on cyclic stores and panics inside
`split`).  In-place mutation through the `&mut` handle becomes an
`ainsert` write-back of the final node value. -/
def insertNode (fuel : Nat) (S : Nat) (s : StoreM) (ident key data : Int) :
    Option (InsResM × StoreM) :=
  match fuel with
  | 0 => none
  | fuel + 1 =>
    if ident < 0 then
      match alookup s.inners (-ident) with
      | none => some (.insertError .invalidReference, s)
      | some n =>
        match binarySearch (n.separators.take n.size) key with
        | .found _ => some (.duplicateKey, s)
        | .notFound u =>
          match insertNode fuel S s (n.children.getD u 0) key data with
          | none => none
          | some (res, s1) =>
            match res with
            | .nodeOverflow newSep newIdent =>
              match alookup s1.inners (-ident) with
              | none => some (.insertError .invalidReference, s1)
              | some cur =>
                match innerFixupLocal S cur u newSep newIdent with
                | .noSplit cur1 =>
                  some (.ok, { s1 with inners := ainsert s1.inners (-ident) cur1 })
                | .mismatch cur1 msg =>
                  some (.error msg,
                    { s1 with inners := ainsert s1.inners (-ident) cur1 })
                | .panicked => none
                | .overflowSplit left rootSep right =>
                  let s3 := { s1 with inners := ainsert s1.inners (-ident) left }
                  let st := storeNodeM s3 (.inner right)
                  some (.nodeOverflow rootSep st.1, st.2)
            | r => some (r, s1)
    else
      match alookup s.leaves ident with
      | none => some (.insertError .invalidReference, s)
      | some n =>
        match leafInsertLocal S n key data with
        | .dup => some (.duplicateKey, s)
        | .noSplit n1 =>
          some (.ok, { s with leaves := ainsert s.leaves ident n1 })
        | .mismatch n1 msg =>
          some (.error msg, { s with leaves := ainsert s.leaves ident n1 })
        | .panicked => none
        | .overflowSplit left rootSep right =>
          let s2 := { s with leaves := ainsert s.leaves ident left }
          let st := storeNodeM s2 (.leaf right)
          some (.nodeOverflow rootSep st.1, st.2)

/-- Modelled from the spec: the repository declares point search
(`Tree::search` in src/types/tree.rs delegates to `Node::search`) but no
definition of `Node::search` exists under src/.  Following spec §4.4.1:
fetch the node, binary-search the live prefix; at a leaf a hit returns
`some data_blocks[idx]` and a miss returns `none`; at an inner node a
hit at `r` descends into `children[r]` and a miss with insertion
position `u` descends into `children[u]`.  The outer `none` is fuel
exhaustion, `Except.error` an I/O failure. -/
def searchNode (fuel : Nat) (s : StoreM) (ident key : Int) :
    Option (Except NodeStoreErrorM (Option Int)) :=
  match fuel with
  | 0 => none
  | fuel + 1 =>
    match getNodeStore s ident with
    | none => some (.error .invalidReference)
    | some (.inner n) =>
      match binarySearch (n.separators.take n.size) key with
      | .found r => searchNode fuel s (n.children.getD r 0) key
      | .notFound u => searchNode fuel s (n.children.getD u 0) key
    | some (.leaf n) =>
      match binarySearch (n.keys.take n.size) key with
      | .found r => some (.ok (some (n.data_blocks.getD r 0)))
      | .notFound _ => some (.ok none)

/-! ## Second-chance cache (src/types/second_chance_cache.rs) -/

/-- `CACHE_SIZE` (src/types/second_chance_cache.rs:8). -/
def CACHE_SIZE : Nat := 4

/-- `CacheItem<T, S>` (src/types/second_chance_cache.rs:10-17); the
`u8` counter becomes a `Nat`. -/
structure CacheItemM where
  node : NodeInstanceM
  chances : Nat
  deriving DecidableEq, Repr

/-- `Cache<T, S>` (src/types/second_chance_cache.rs:19-25): the
`HashMap` becomes an association list; the list order stands for the
map's iteration order. -/
abbrev CacheM : Type := List (Int × CacheItemM)

/-- `Cache::has_node` (src/types/second_chance_cache.rs:32-34). -/
def cacheHasNode (c : CacheM) (ident : Int) : Bool :=
  (alookup c ident).isSome

/-- `Cache::get_node` (src/types/second_chance_cache.rs:36-47): on a
hit, bump `chances` unless it is already 8, and return the (mutated)
item together with the updated cache. -/
def cacheGetNode (c : CacheM) (ident : Int) : Option CacheItemM × CacheM :=
  match alookup c ident with
  | none => (none, c)
  | some it =>
    let it2 : CacheItemM :=
      ⟨it.node, if it.chances < 8 then it.chances + 1 else it.chances⟩
    (some it2, ainsert c ident it2)

/-- One pass of the victim-selection loop in `Cache::cache_node`
(src/types/second_chance_cache.rs:61-74): walk the entries; decrement
each entry with positive `chances`; stop at the first entry whose
`chances` is zero and report it as the victim, leaving the remaining
entries untouched. -/
def sweep : CacheM → Option Int × CacheM
  | [] => (none, [])
  | (id, it) :: rest =>
    if it.chances > 0 then
      let r := sweep rest
      (r.1, (id, ⟨it.node, it.chances - 1⟩) :: r.2)
    else (some id, (id, it) :: rest)

/-- Total `chances` mass of a cache, the variant of the eviction loop. -/
def chancesSum (c : CacheM) : Nat :=
  (c.map (fun e => e.2.chances)).sum

/-- The outer `loop` of `Cache::cache_node`
(src/types/second_chance_cache.rs:60-75), bounded by `fuel`: repeat
sweeps until one yields a victim.  The empty-cache guard mirrors the
fact that the Rust loop is only entered at full capacity; `fuel = 0`
models non-termination. -/
def findVictimGo : Nat → CacheM → Option Int × CacheM
  | 0, c => (none, c)
  | fuel + 1, c =>
    match sweep c with
    | (some v, c2) => (some v, c2)
    | (none, c2) => if c.isEmpty then (none, c) else findVictimGo fuel c2

/-- Victim selection with enough fuel: `chancesSum c + 1` sweeps always
suffice (proved below as the termination claim). -/
def findVictim (c : CacheM) : Option Int × CacheM :=
  findVictimGo (chancesSum c + 1) c

/-- `Cache::cache_node` (src/types/second_chance_cache.rs:51-83): at
capacity, select a victim, remove it and return it; then insert the
new entry with `chances = 1`. -/
def cacheNode (c : CacheM) (ident : Int) (node : NodeInstanceM) :
    Option (Int × NodeInstanceM) × CacheM :=
  if c.length = CACHE_SIZE then
    let fv := findVictim c
    match fv.1 with
    | none => (none, ainsert fv.2 ident ⟨node, 1⟩)
    | some victim =>
      let removed := (alookup fv.2 victim).map (fun it => (victim, it.node))
      let c2 := aerase fv.2 victim
      (removed, ainsert c2 ident ⟨node, 1⟩)
  else (none, ainsert c ident ⟨node, 1⟩)

/-- `Cache::drain` (src/types/second_chance_cache.rs:85-87): yield all
entries, leaving the cache empty. -/
def cacheDrain (c : CacheM) : CacheM × CacheM := (c, [])

/-- Entry with its `chances` counter decremented, as one sweep pass
leaves the entries it steps over. -/
def decChance (e : Int × CacheItemM) : Int × CacheItemM :=
  (e.1, ⟨e.2.node, e.2.chances - 1⟩)

/-- The public cache operations of `Cache<T, S>`, for stating
invariants over arbitrary call sequences. -/
inductive CacheOp where
  | hasOp (ident : Int)
  | getOp (ident : Int)
  | cacheOp (ident : Int) (node : NodeInstanceM)
  | drainOp

/-- State transition of one cache operation. -/
def applyCacheOp (c : CacheM) : CacheOp → CacheM
  | .hasOp _ => c
  | .getOp i => (cacheGetNode c i).2
  | .cacheOp i n => (cacheNode c i n).2
  | .drainOp => (cacheDrain c).2

/-- Run a sequence of cache operations from the empty cache. -/
def runCacheOps (ops : List CacheOp) : CacheM :=
  ops.foldl applyCacheOp []

/-! ## Block codec (src/types/file_store.rs:24-148) -/

/-- `BLOCK_SIZE` (src/types/file_store.rs:17). -/
def BLOCK_SIZE : Nat := 128

/-- Little-endian byte decomposition, `w` bytes. -/
def natToLeBytes : Nat → Nat → List Nat
  | 0, _ => []
  | w + 1, v => v % 256 :: natToLeBytes w (v / 256)

/-- `to_le_bytes` of a `w`-byte signed machine integer: bytes of the
two's-complement representative. -/
def intToLeBytes (w : Nat) (v : Int) : List Nat :=
  natToLeBytes w (v.emod ((2 : Int) ^ (8 * w))).toNat

/-- Little-endian recomposition. -/
def leBytesToNat : List Nat → Nat
  | [] => 0
  | b :: bs => b + 256 * leBytesToNat bs

/-- `from_le_bytes` of a `w`-byte signed machine integer. -/
def leBytesToInt (w : Nat) (bs : List Nat) : Int :=
  let n := leBytesToNat bs
  if n < 2 ^ (8 * w - 1) then (n : Int) else (n : Int) - 2 ^ (8 * w)

/-- Read `count` consecutive `w`-byte little-endian signed integers,
as the decoding loops of `from_bytes` do. -/
def readChunks (w : Nat) : Nat → List Nat → List Int
  | 0, _ => []
  | c + 1, bs => leBytesToInt w (bs.take w) :: readChunks w c (bs.drop w)

/-- The `size` recovery loop of `from_bytes`
(src/types/file_store.rs:72-78 and 133-139): count of leading non-zero
entries. -/
def leadingNonzero : List Int → Nat
  | [] => 0
  | k :: ks => if k ≠ 0 then leadingNonzero ks + 1 else 0

/-- `InnerNode::to_bytes` (src/types/file_store.rs:29-47): `S` 8-byte
little-endian keys, then `S` 4-byte little-endian identifiers, zero
padding up to `BLOCK_SIZE`. -/
def innerToBytes (n : InnerN) : List Nat :=
  let body := n.separators.flatMap (intToLeBytes 8) ++
    n.children.flatMap (intToLeBytes 4)
  body ++ List.replicate (BLOCK_SIZE - body.length) 0

/-- `InnerNode::from_bytes` (src/types/file_store.rs:49-86). -/
def innerFromBytes (S : Nat) (block : List Nat) : InnerN :=
  let seps := readChunks 8 S block
  let children := readChunks 4 S (block.drop (8 * S))
  ⟨seps, children, leadingNonzero seps⟩

/-- `LeafNode::to_bytes` (src/types/file_store.rs:90-108). -/
def leafToBytes (n : LeafN) : List Nat :=
  let body := n.keys.flatMap (intToLeBytes 8) ++
    n.data_blocks.flatMap (intToLeBytes 4)
  body ++ List.replicate (BLOCK_SIZE - body.length) 0

/-- `LeafNode::from_bytes` (src/types/file_store.rs:110-148). -/
def leafFromBytes (S : Nat) (block : List Nat) : LeafN :=
  let keys := readChunks 8 S block
  let data_blocks := readChunks 4 S (block.drop (8 * S))
  ⟨keys, data_blocks, leadingNonzero keys⟩

/-! ## File-backed node store (src/types/file_store.rs:150-308) -/

/-- `FileStore<T, S>` (src/types/file_store.rs:150-163): the file
becomes a map from block index to block contents; the scratch fields
`current_inner` / `current_leaf` carry no retained state and are
dropped. -/
structure FileStoreM where
  file : List (Nat × List Nat)
  node_ctr : Int
  cache : CacheM

/-- `FileStore::get_block` (src/types/file_store.rs:199-208): reading a
block that was never written fails with `InvalidReference`. -/
def getBlock (fs : FileStoreM) (index : Nat) :
    Except NodeStoreErrorM (List Nat) :=
  match alookup fs.file index with
  | some b => .ok b
  | none => .error .invalidReference

/-- `FileStore::set_block` (src/types/file_store.rs:210-216).  The
`writeOk` flag models the underlying `write_at` syscall: when `false`
the write fails and `WriteFailed` is returned. -/
def setBlock (writeOk : Bool) (fs : FileStoreM) (index : Nat)
    (block : List Nat) : Except NodeStoreErrorM FileStoreM :=
  if writeOk then .ok { fs with file := ainsert fs.file index block }
  else .error .writeFailed

/-- `FileStore::get_node` (src/types/file_store.rs:224-268): cache hit
returns the cached node; a miss reads and decodes block `|ident|`,
caches it, and — when caching evicted an entry — encodes the victim and
calls `set_block` on its block, DISCARDING the returned `Result`
(src/types/file_store.rs:243 and 247 end the call with `;` and no
check).  The trailing `unwrap` re-reads the just-inserted entry; `none`
models its (unreachable) panic. -/
def fileGetNode (S : Nat) (writeOk : Bool) (fs : FileStoreM) (ident : Int) :
    Option (Except NodeStoreErrorM NodeInstanceM × FileStoreM) :=
  match cacheGetNode fs.cache ident with
  | (some it, c2) => some (.ok it.node, { fs with cache := c2 })
  | (none, _) =>
    match getBlock fs ident.natAbs with
    | .error e => some (.error e, fs)
    | .ok block =>
      let node : NodeInstanceM :=
        if ident < 0 then .inner (innerFromBytes S block)
        else .leaf (leafFromBytes S block)
      let cn := cacheNode fs.cache ident node
      let fs1 : FileStoreM := { fs with cache := cn.2 }
      let fs2 :=
        match cn.1 with
        | none => fs1
        | some (ident2, node2) =>
          let block2 :=
            match node2 with
            | .inner i => innerToBytes i
            | .leaf l => leafToBytes l
          match setBlock writeOk fs1 ident2.natAbs block2 with
          | .ok fs3 => fs3
          | .error _ => fs1
      match cacheGetNode fs2.cache ident with
      | (some it, c3) => some (.ok it.node, { fs2 with cache := c3 })
      | (none, _) => none

/-! ## Theorems -/

theorem cascade_no_sentinel (ys : List Int) (z v E : Int) (hy : E ∉ ys)
    (hz : z ≠ E) : cascade (ys ++ [z]) v E = (v :: ys, some z) := by
  induction ys generalizing v with
  | nil => simp [cascade, hz]
  | cons y ys ih =>
    have h1 : y ≠ E := fun h => hy (by simp [h])
    have h2 : E ∉ ys := fun h => hy (List.mem_cons_of_mem _ h)
    simp only [List.cons_append, cascade, if_neg h1]
    rw [show ys.append [z] = ys ++ [z] from rfl, ih y h2]

theorem cascade_sentinel (ys zs : List Int) (v E : Int) (hy : E ∉ ys) :
    cascade (ys ++ E :: zs) v E = (v :: (ys ++ zs), none) := by
  induction ys generalizing v with
  | nil => simp [cascade]
  | cons y ys ih =>
    have h1 : y ≠ E := fun h => hy (by simp [h])
    have h2 : E ∉ ys := fun h => hy (List.mem_cons_of_mem _ h)
    simp only [List.cons_append, cascade, if_neg h1]
    rw [show ys.append (E :: zs) = ys ++ E :: zs from rfl, ih y h2]

/-- C5: `insert_into_array` leaves the elements before the insertion
index unchanged; it cascades the incoming value through slots
`i..len-1`, reporting no overflow as soon as a pre-swap slot held the
sentinel `E` (elements past that slot untouched), and when the loop
runs off the end of the array the last swapped-out element is returned
as the overflow (the incoming value itself when the suffix is empty). -/
theorem insert_into_array_cascade (l : List Int) (i : Nat) (v E : Int) :
    ((insertIntoArray l i v E).1.take i = l.take i) ∧
    (∀ ys zs, l.drop i = ys ++ E :: zs → E ∉ ys →
      insertIntoArray l i v E = (l.take i ++ v :: (ys ++ zs), none)) ∧
    (∀ ys z, l.drop i = ys ++ [z] → E ∉ l.drop i →
      insertIntoArray l i v E = (l.take i ++ v :: ys, some z)) ∧
    (l.drop i = [] → insertIntoArray l i v E = (l, some v)) := by
  refine ⟨?_, ?_, ?_, ?_⟩
  · rcases le_or_lt i l.length with hi | hi
    · rw [insertIntoArray, List.take_append_eq_append_take, List.take_take,
        min_self, List.length_take]
      have : i - min i l.length = 0 := by omega
      simp [this]
    · have hd : l.drop i = [] := by
        apply List.drop_eq_nil_of_le; omega
      have ht : l.take i = l := List.take_of_length_le (by omega)
      simp [insertIntoArray, hd, ht, cascade, List.take_of_length_le,
        le_of_lt hi]
  · intro ys zs hdrop hys
    rw [insertIntoArray, hdrop, cascade_sentinel ys zs v E hys]
  · intro ys z hdrop hnot
    have hys : E ∉ ys := fun h => hnot (hdrop ▸ List.mem_append_left _ h)
    have hz : z ≠ E := fun h =>
      hnot (hdrop ▸ List.mem_append_right _ (by simp [h]))
    rw [insertIntoArray, hdrop, cascade_no_sentinel ys z v E hys hz]
  · intro hdrop
    have ht : l.take i = l := List.take_of_length_le (by
      have := List.drop_eq_nil_iff.mp hdrop
      omega)
    simp [insertIntoArray, hdrop, cascade, ht]

theorem insert_into_array_cascade_witness :
    insertIntoArray [1, 2, 0] 0 5 0 = ([5, 1, 2], none) :=
  (insert_into_array_cascade [1, 2, 0] 0 5 0).2.1 [1, 2] [] (by decide)
    (by decide)

theorem getD_drop_zero (l : List Int) (i : Nat) (d : Int) :
    (l.drop i).getD 0 d = l.getD i d := by
  rw [List.getD_eq_getElem?_getD, List.getElem?_drop]
  simp [List.getD_eq_getElem?_getD]

theorem leafSplit_left_size (S : Nat) (x : LeafN) (k v a : Int)
    (b c : List Int) (L : LeafN) (h : leafSplit S x k v = some (a, b, c, L)) :
    L.size = S / 2 := by
  simp only [leafSplit] at h
  split_ifs at h
  simp only [Option.some.injEq, Prod.mk.injEq] at h
  obtain ⟨-, -, -, h4⟩ := h
  rw [← h4]

/-- C3: for even fanout `S`, a leaf split with `m = S / 2` moves
`keys[m..S]` and `data_blocks[m..S]` to positions `0..S-m` of the fresh
right leaf, appends the displaced overflow pair at position `S - m`,
zeroes the vacated left slots, sets left `size = m`, reports
`right.keys[0]` as the new separator, and the insert path gives the
right leaf `size = m + 1`. -/
theorem leaf_split_correct (S : Nat) (n : LeafN) (ok ov : Int)
    (hS : S % 2 = 0) (h2 : 2 ≤ S) (hk : n.keys.length = S)
    (hd : n.data_blocks.length = S) :
    leafSplit S n ok ov =
      some (n.keys.getD (S / 2) 0,
        n.keys.drop (S / 2) ++ ok :: List.replicate (S / 2 - 1) 0,
        n.data_blocks.drop (S / 2) ++ ov :: List.replicate (S / 2 - 1) 0,
        ⟨n.keys.take (S / 2) ++ List.replicate (S / 2) 0,
         n.data_blocks.take (S / 2) ++ List.replicate (S / 2) 0,
         S / 2⟩) ∧
    (n.keys.drop (S / 2) ++ ok :: List.replicate (S / 2 - 1) 0).getD 0 0 =
      n.keys.getD (S / 2) 0 ∧
    (∀ key dat left sep right,
      leafInsertLocal S n key dat = .overflowSplit left sep right →
      right.size = S / 2 + 1 ∧ left.size = S / 2) := by
  have hm : S - S / 2 = S / 2 := by omega
  have hlt : S / 2 < S := by omega
  have hdk : (n.keys.drop (S / 2)).length = S / 2 := by
    simp [hk]; omega
  have hdd : (n.data_blocks.drop (S / 2)).length = S / 2 := by
    simp [hd]; omega
  refine ⟨?_, ?_, ?_⟩
  · unfold leafSplit
    rw [if_pos hlt, if_pos hm]
    rw [List.take_of_length_le (by rw [hdk]; omega),
      List.take_of_length_le (by rw [hdd]; omega)]
    rw [hm]
    dsimp only
    rw [getD_drop_zero]
  · rw [List.getD_eq_getElem?_getD, List.getElem?_append_left (by omega),
      ← List.getD_eq_getElem?_getD, getD_drop_zero]
  · intro key dat left sep right h
    unfold leafInsertLocal at h
    rcases hb : binarySearch (n.keys.take n.size) key with _ | u <;> rw [hb] at h
    · exact absurd h (by simp)
    · rcases h1 : (insertIntoArray (n.keys.take S) u key 0).2 with _ | k0 <;>
        rcases h2' : (insertIntoArray (n.data_blocks.take S) u 10 0).2 with _ | v0 <;>
        simp only [h1, h2'] at h
      · exact absurd h (by simp)
      · exact absurd h (by simp)
      · exact absurd h (by simp)
      · rcases hsp : leafSplit S ⟨(insertIntoArray (n.keys.take S) u key 0).1 ++ n.keys.drop S,
          (insertIntoArray (n.data_blocks.take S) u 10 0).1 ++ n.data_blocks.drop S,
          n.size + 1⟩ k0 v0 with _ | ⟨a, b, c, L⟩ <;> rw [hsp] at h
        · exact absurd h (by simp)
        · simp only [LeafLocalRes.overflowSplit.injEq] at h
          obtain ⟨hL, -, hR⟩ := h
          constructor
          · rw [← hR]
          · rw [← hL]
            exact leafSplit_left_size S _ k0 v0 a b c L hsp
theorem innerSplit_left_size (S : Nat) (x : InnerN) (k v a : Int)
    (b c : List Int) (L : InnerN) (h : innerSplit S x k v = some (a, b, c, L)) :
    L.size = S / 2 - 1 := by
  simp only [innerSplit] at h
  split_ifs at h
  simp only [Option.some.injEq, Prod.mk.injEq] at h
  obtain ⟨-, -, -, h4⟩ := h
  rw [← h4]

theorem getD_take_zero (l : List Int) (m : Nat) (d : Int) (hm : 1 ≤ m) :
    (l.take m).getD 0 d = l.getD 0 d := by
  rcases l with _ | ⟨x, xs⟩
  · simp
  · rcases m with _ | m
    · omega
    · simp [List.take_succ_cons, List.getD]

/-- C4: for even fanout `S`, an inner split with `m = S / 2` promotes
`separators[m-1]` as the pivot without copying it into either child,
builds the right node from `right_slice[1..m]` with the overflow key at
separator position `m - 1` and the overflow child at position `m`,
zeroes the vacated left slots (indices `m-1..S-2`; the by-convention
never-populated separator slot `S - 1` is outside the `fill` and keeps
its old value), sets left `size = m - 1`, and the insert path gives the
right node `size = m`. -/
theorem inner_split_correct (S : Nat) (n : InnerN) (ok ov : Int)
    (hS : S % 2 = 0) (h2 : 2 ≤ S) (hk : n.separators.length = S)
    (hd : n.children.length = S) :
    innerSplit S n ok ov =
      some (n.separators.getD (S / 2 - 1) 0,
        (n.separators.drop (S / 2)).take (S / 2 - 1) ++
          ok :: List.replicate (S / 2) 0,
        n.children.drop (S / 2) ++ ov :: List.replicate (S / 2 - 1) 0,
        ⟨n.separators.take (S / 2 - 1) ++ List.replicate (S / 2) 0 ++
           n.separators.drop (S - 1),
         n.children.take (S / 2) ++ List.replicate (S / 2) 0,
         S / 2 - 1⟩) ∧
    ((n.separators.drop (S / 2)).take (S / 2 - 1) ++
        ok :: List.replicate (S / 2) 0).getD (S / 2 - 1) 0 = ok ∧
    (n.children.drop (S / 2) ++ ov :: List.replicate (S / 2 - 1) 0).getD
        (S / 2) 0 = ov ∧
    (∀ u newSep newIdent left sep right,
      innerFixupLocal S n u newSep newIdent = .overflowSplit left sep right →
      right.size = S / 2 ∧ left.size = S / 2 - 1) := by
  have hm : S - S / 2 = S / 2 := by omega
  have hm1 : 1 ≤ S / 2 := by omega
  have hlt : S / 2 < S := by omega
  have hdk : (n.separators.drop (S / 2 - 1)).length = S / 2 + 1 := by
    simp [hk]; omega
  have hdd : (n.children.drop (S / 2)).length = S / 2 := by
    simp [hd]; omega
  refine ⟨?_, ?_, ?_, ?_⟩
  · unfold innerSplit
    rw [if_pos ⟨hm1, hlt⟩, if_pos hm]
    dsimp only
    rw [hm]
    rw [List.take_of_length_le (le_of_eq hdd)]
    rw [getD_take_zero _ _ _ hm1, getD_drop_zero]
    rw [List.drop_take, List.drop_drop, List.take_take, min_self]
    have ha : S - 1 - (S / 2 - 1) = S / 2 := by omega
    have hb : S / 2 - 1 + 1 = S / 2 := by omega
    rw [ha, hb]
  · have hl : ((n.separators.drop (S / 2)).take (S / 2 - 1)).length = S / 2 - 1 := by
      simp [hk]; omega
    rw [List.getD_eq_getElem?_getD, List.getElem?_append_right (le_of_eq hl)]
    rw [hl, Nat.sub_self]
    simp
  · rw [List.getD_eq_getElem?_getD, List.getElem?_append_right (le_of_eq hdd)]
    rw [hdd, Nat.sub_self]
    simp
  · intro u newSep newIdent left sep right h
    unfold innerFixupLocal at h
    rcases h1 : (insertIntoArray (n.separators.take (S - 1)) u newSep 0).2 with _ | k0 <;>
      rcases h2' : (insertIntoArray (n.children.take S) (u + 1) newIdent 0).2 with _ | v0 <;>
      simp only [h1, h2'] at h
    · exact absurd h (by simp)
    · exact absurd h (by simp)
    · exact absurd h (by simp)
    · rcases hsp : innerSplit S ⟨(insertIntoArray (n.separators.take (S - 1)) u newSep 0).1 ++ n.separators.drop (S - 1),
        (insertIntoArray (n.children.take S) (u + 1) newIdent 0).1 ++ n.children.drop S,
        n.size + 1⟩ k0 v0 with _ | ⟨a, b, c, L⟩ <;> rw [hsp] at h
      · exact absurd h (by simp)
      · simp only [InnerLocalRes.overflowSplit.injEq] at h
        obtain ⟨hL, -, hR⟩ := h
        refine ⟨by rw [← hR], ?_⟩
        rw [← hL]
        exact innerSplit_left_size S _ k0 v0 a b c L hsp

/-- C10: both split routines are free of slice-length panics exactly
for even fanout: for every odd `S ≥ 3` the `copy_from_slice` length
mismatch panics (modelled as `none`), while for every even `S ≥ 2` both
copies are length-matched and the split succeeds. -/
theorem split_parity_totality :
    (∀ (S : Nat) (n : LeafN) (k v : Int), S % 2 = 1 → 3 ≤ S →
      leafSplit S n k v = none) ∧
    (∀ (S : Nat) (n : InnerN) (k v : Int), S % 2 = 1 → 3 ≤ S →
      innerSplit S n k v = none) ∧
    (∀ (S : Nat) (n : LeafN) (k v : Int), S % 2 = 0 → 2 ≤ S →
      (leafSplit S n k v).isSome) ∧
    (∀ (S : Nat) (n : InnerN) (k v : Int), S % 2 = 0 → 2 ≤ S →
      (innerSplit S n k v).isSome) := by
  refine ⟨?_, ?_, ?_, ?_⟩
  · intro S n k v hodd h3
    simp only [leafSplit]
    rw [if_pos (by omega), if_neg (by omega)]
  · intro S n k v hodd h3
    simp only [innerSplit]
    rw [if_pos (by constructor <;> omega), if_neg (by omega)]
  · intro S n k v heven h2
    simp only [leafSplit]
    rw [if_pos (by omega), if_pos (by omega)]
    rfl
  · intro S n k v heven h2
    simp only [innerSplit]
    rw [if_pos (by constructor <;> omega), if_pos (by omega)]
    rfl

theorem split_parity_totality_witness :
    leafSplit 3 ⟨[1, 2, 3], [4, 5, 6], 3⟩ 7 8 = none ∧
    innerSplit 3 ⟨[1, 2, 3], [4, 5, 6], 3⟩ 7 8 = none ∧
    (leafSplit 4 ⟨[1, 2, 3, 4], [5, 6, 7, 8], 4⟩ 9 10).isSome ∧
    (innerSplit 4 ⟨[1, 2, 3, 4], [5, 6, 7, 8], 4⟩ 9 10).isSome :=
  ⟨split_parity_totality.1 3 _ 7 8 (by decide) (by decide),
   split_parity_totality.2.1 3 _ 7 8 (by decide) (by decide),
   split_parity_totality.2.2.1 4 _ 9 10 (by decide) (by decide),
   split_parity_totality.2.2.2 4 _ 9 10 (by decide) (by decide)⟩

theorem leaf_split_correct_witness :
    leafSplit 4 ⟨[1, 2, 3, 4], [11, 12, 13, 14], 4⟩ 5 15 =
      some (3, [3, 4, 5, 0], [13, 14, 15, 0],
        ⟨[1, 2, 0, 0], [11, 12, 0, 0], 2⟩) :=
  (leaf_split_correct 4 ⟨[1, 2, 3, 4], [11, 12, 13, 14], 4⟩ 5 15 (by decide)
    (by decide) (by decide) (by decide)).1

theorem inner_split_correct_witness :
    innerSplit 4 ⟨[1, 2, 3, 9], [-1, -2, -3, -4], 4⟩ 7 (-9) =
      some (2, [3, 7, 0, 0], [-3, -4, -9, 0],
        ⟨[1, 0, 0, 9], [-1, -2, 0, 0], 1⟩) :=
  (inner_split_correct 4 ⟨[1, 2, 3, 9], [-1, -2, -3, -4], 4⟩ 7 (-9)
    (by decide) (by decide) (by decide) (by decide)).1

/-- C1 (failing-input evaluation): inserting key `5` with payload
data_block `7` into an empty leaf stores the pair `(5, 10)` — the
constant `10` from src/types/node.rs:292 — not `(5, 7)`, and the
(spec-modelled) search then returns `some 10 ≠ some 7`; so the claimed
insertion of `(k, d)` and the insert-then-search law fail on the code. -/
theorem leaf_insert_ignores_payload :
    insertNode 2 2 ⟨[], [(1, ⟨[0, 0], [0, 0], 0⟩)], 0, 1⟩ 1 5 7 =
      some (.ok, ⟨[], [(1, ⟨[5, 0], [10, 0], 1⟩)], 0, 1⟩) ∧
    searchNode 2 ⟨[], [(1, ⟨[5, 0], [10, 0], 1⟩)], 0, 1⟩ 1 5 =
      some (.ok (some 10)) ∧
    (10 : Int) ≠ 7 :=
  ⟨by decide, by rfl, by decide⟩

/-- C6: whenever search finds `key` (so the key is already present),
`insert` returns `DuplicateKey` and leaves the store untouched — both
descents take identical binary-search branches, the leaf returns before
any write, and inner nodes propagate the child's `DuplicateKey`
unchanged; since the store is unchanged, a subsequent search still
returns the originally stored value. -/
theorem duplicate_insert_noop : ∀ (fuel : Nat) (S : Nat) (s : StoreM)
    (ident key dat v : Int),
    searchNode fuel s ident key = some (.ok (some v)) →
    insertNode fuel S s ident key dat = some (.duplicateKey, s) := by
  intro fuel
  induction fuel with
  | zero =>
    intro S s ident key dat v h
    simp [searchNode] at h
  | succ fuel ih =>
    intro S s ident key dat v h
    rw [searchNode] at h
    rw [insertNode]
    by_cases hneg : ident < 0
    · rw [if_pos hneg]
      rw [getNodeStore, if_pos hneg] at h
      cases hl : alookup s.inners (-ident) with
      | none => rw [hl] at h; simp at h
      | some n =>
        rw [hl] at h
        simp only [Option.map_some'] at h
        cases hb : binarySearch (n.separators.take n.size) key with
        | found r => simp only [hb]
        | notFound u =>
          simp only [hb] at h
          simp only [hb]
          rw [ih S s (n.children.getD u 0) key dat v h]
    · rw [if_neg hneg]
      rw [getNodeStore, if_neg hneg] at h
      cases hl : alookup s.leaves ident with
      | none => rw [hl] at h; simp at h
      | some n =>
        rw [hl] at h
        simp only [Option.map_some'] at h
        cases hb : binarySearch (n.keys.take n.size) key with
        | found r =>
          simp only [leafInsertLocal, hb]
        | notFound u =>
          simp only [hb] at h
          simp at h

theorem duplicate_insert_noop_witness :
    insertNode 1 2 ⟨[], [(1, ⟨[5, 0], [9, 0], 1⟩)], 0, 1⟩ 1 5 7 =
      some (.duplicateKey, ⟨[], [(1, ⟨[5, 0], [9, 0], 1⟩)], 0, 1⟩) :=
  duplicate_insert_noop 1 2 ⟨[], [(1, ⟨[5, 0], [9, 0], 1⟩)], 0, 1⟩ 1 5 7 9
    (by rfl)

theorem chancesSum_cons (id : Int) (it : CacheItemM) (rest : CacheM) :
    chancesSum ((id, it) :: rest) = it.chances + chancesSum rest := by
  simp [chancesSum]

theorem sweep_length (c : CacheM) : (sweep c).2.length = c.length := by
  induction c with
  | nil => rfl
  | cons e rest ih =>
    obtain ⟨id, it⟩ := e
    simp only [sweep]
    split_ifs
    · simpa using ih
    · rfl

theorem sweep_chances (c : CacheM) (B : Nat)
    (h : ∀ e ∈ c, e.2.chances ≤ B) :
    ∀ e ∈ (sweep c).2, e.2.chances ≤ B := by
  induction c with
  | nil => simp [sweep]
  | cons e rest ih =>
    obtain ⟨id, it⟩ := e
    have h1 : it.chances ≤ B := h (id, it) (by simp)
    have h2 : ∀ e ∈ rest, e.2.chances ≤ B :=
      fun e he => h e (List.mem_cons_of_mem _ he)
    simp only [sweep]
    split_ifs
    · intro e he
      rcases List.mem_cons.mp he with rfl | he2
      · simpa using Nat.le_trans (Nat.sub_le _ _) h1
      · exact ih h2 e he2
    · intro e he
      rcases List.mem_cons.mp he with rfl | he2
      · simpa using h1
      · exact h2 e he2

theorem sweep_some_mem (c : CacheM) (v : Int)
    (h : (sweep c).1 = some v) : (alookup (sweep c).2 v).isSome := by
  induction c with
  | nil => simp [sweep] at h
  | cons e rest ih =>
    obtain ⟨id, it⟩ := e
    by_cases hc : it.chances > 0
    · simp only [sweep, if_pos hc] at h ⊢
      have := ih h
      simp only [alookup]
      split_ifs
      · rfl
      · exact this
    · simp only [sweep, if_neg hc] at h ⊢
      cases h
      simp [alookup]

theorem sweep_none_sum (c : CacheM) (c2 : CacheM)
    (h : sweep c = (none, c2)) : chancesSum c2 + c.length = chancesSum c := by
  induction c generalizing c2 with
  | nil =>
    simp only [sweep] at h
    cases h
    rfl
  | cons e rest ih =>
    obtain ⟨id, it⟩ := e
    by_cases hc : it.chances > 0
    · simp only [sweep, if_pos hc] at h
      rw [Prod.ext_iff] at h
      obtain ⟨h1, h2⟩ := h
      simp only at h1 h2
      have ihr := ih (sweep rest).2 (by
        rw [Prod.ext_iff]
        exact ⟨h1, rfl⟩)
      rw [← h2, chancesSum_cons, chancesSum_cons]
      simp only [List.length_cons]
      omega
    · simp only [sweep, if_neg hc] at h
      cases h

theorem findVictimGo_length (f : Nat) (c : CacheM) :
    (findVictimGo f c).2.length = c.length := by
  induction f generalizing c with
  | zero => rfl
  | succ f ih =>
    rw [findVictimGo]
    rcases hs : sweep c with ⟨r, c2⟩
    have hl : c2.length = c.length := by
      have := sweep_length c
      rw [hs] at this
      exact this
    cases r with
    | some v => simpa using hl
    | none =>
      by_cases he : c.isEmpty
      · simp only [if_pos he]
      · simp only [if_neg he]
        rw [ih c2, hl]

theorem findVictimGo_chances (f : Nat) (c : CacheM) (B : Nat)
    (h : ∀ e ∈ c, e.2.chances ≤ B) :
    ∀ e ∈ (findVictimGo f c).2, e.2.chances ≤ B := by
  induction f generalizing c with
  | zero => exact h
  | succ f ih =>
    rw [findVictimGo]
    rcases hs : sweep c with ⟨r, c2⟩
    have hc2 : ∀ e ∈ c2, e.2.chances ≤ B := by
      have := sweep_chances c B h
      rw [hs] at this
      exact this
    cases r with
    | some v => exact hc2
    | none =>
      by_cases he : c.isEmpty
      · simp only [if_pos he]
        exact h
      · simp only [if_neg he]
        exact ih c2 hc2

theorem findVictimGo_some_mem (f : Nat) (c : CacheM) (v : Int)
    (h : (findVictimGo f c).1 = some v) :
    (alookup (findVictimGo f c).2 v).isSome := by
  induction f generalizing c with
  | zero => simp [findVictimGo] at h
  | succ f ih =>
    rw [findVictimGo] at h ⊢
    rcases hs : sweep c with ⟨r, c2⟩
    rw [hs] at h
    cases r with
    | some w =>
      simp only at h ⊢
      cases h
      have h2 := sweep_some_mem c v (by rw [hs])
      rw [hs] at h2
      exact h2
    | none =>
      simp only at h ⊢
      by_cases he : c.isEmpty
      · rw [if_pos he] at h
        simp at h
      · rw [if_neg he] at h ⊢
        exact ih c2 h

theorem findVictimGo_isSome (f : Nat) : ∀ (c : CacheM),
    chancesSum c < f → c ≠ [] → ((findVictimGo f c).1.isSome) := by
  induction f with
  | zero => intro c h _; omega
  | succ f ih =>
    intro c hf hne
    rw [findVictimGo]
    rcases hs : sweep c with ⟨r, c2⟩
    cases r with
    | some w => rfl
    | none =>
      simp only
      have hlen : c2.length = c.length := by
        have := sweep_length c
        rw [hs] at this
        exact this
      rw [if_neg (by simpa [List.isEmpty_iff] using hne)]
      have hsum := sweep_none_sum c c2 hs
      have hclen : 1 ≤ c.length := by
        cases c
        · exact absurd rfl hne
        · simp
      refine ih c2 (by omega) ?_
      intro h0
      rw [h0] at hlen
      simp at hlen
      omega
theorem alookup_ainsert {κ α : Type} [DecidableEq κ] (l : List (κ × α))
    (k : κ) (v : α) : alookup (ainsert l k v) k = some v := by
  induction l with
  | nil => simp [ainsert, alookup]
  | cons e rest ih =>
    obtain ⟨k0, v0⟩ := e
    by_cases hk : k0 = k
    · simp [ainsert, hk, alookup]
    · simp only [ainsert, if_neg hk, alookup]
      exact ih

theorem alookup_mem {κ α : Type} [DecidableEq κ] (l : List (κ × α))
    (k : κ) (it : α) (h : alookup l k = some it) : (k, it) ∈ l := by
  induction l with
  | nil => simp [alookup] at h
  | cons e rest ih =>
    obtain ⟨k0, v0⟩ := e
    by_cases hk : k0 = k
    · rw [alookup, if_pos hk] at h
      cases h
      rw [hk]
      exact List.mem_cons_self _ _
    · rw [alookup, if_neg hk] at h
      exact List.mem_cons_of_mem _ (ih h)

theorem ainsert_length_present {κ α : Type} [DecidableEq κ]
    (l : List (κ × α)) (k : κ) (v : α) (h : (alookup l k).isSome) :
    (ainsert l k v).length = l.length := by
  induction l with
  | nil => simp [alookup] at h
  | cons e rest ih =>
    obtain ⟨k0, v0⟩ := e
    by_cases hk : k0 = k
    · simp [ainsert, hk]
    · rw [alookup, if_neg hk] at h
      simp only [ainsert, if_neg hk, List.length_cons]
      rw [ih h]

theorem ainsert_length_le {κ α : Type} [DecidableEq κ] (l : List (κ × α))
    (k : κ) (v : α) : (ainsert l k v).length ≤ l.length + 1 := by
  induction l with
  | nil => simp [ainsert]
  | cons e rest ih =>
    obtain ⟨k0, v0⟩ := e
    by_cases hk : k0 = k
    · simp [ainsert, hk]
    · simp only [ainsert, if_neg hk, List.length_cons]
      omega

theorem ainsert_forall {κ α : Type} [DecidableEq κ] (l : List (κ × α))
    (k : κ) (v : α) (P : α → Prop) (h : ∀ e ∈ l, P e.2) (hv : P v) :
    ∀ e ∈ ainsert l k v, P e.2 := by
  induction l with
  | nil =>
    intro e he
    simp only [ainsert, List.mem_singleton] at he
    rw [he]
    exact hv
  | cons e0 rest ih =>
    obtain ⟨k0, v0⟩ := e0
    by_cases hk : k0 = k
    · intro e he
      simp only [ainsert, if_pos hk] at he
      rcases List.mem_cons.mp he with rfl | he2
      · exact hv
      · exact h e (List.mem_cons_of_mem _ he2)
    · intro e he
      simp only [ainsert, if_neg hk] at he
      rcases List.mem_cons.mp he with rfl | he2
      · exact h (k0, v0) (List.mem_cons_self _ _)
      · exact ih (fun e2 he2 => h e2 (List.mem_cons_of_mem _ he2)) e he2

theorem aerase_length_present {κ α : Type} [DecidableEq κ]
    (l : List (κ × α)) (k : κ) (h : (alookup l k).isSome) :
    (aerase l k).length + 1 = l.length := by
  induction l with
  | nil => simp [alookup] at h
  | cons e rest ih =>
    obtain ⟨k0, v0⟩ := e
    by_cases hk : k0 = k
    · simp [aerase, hk]
    · rw [alookup, if_neg hk] at h
      simp only [aerase, if_neg hk, List.length_cons]
      rw [← ih h]

theorem aerase_subset {κ α : Type} [DecidableEq κ] (l : List (κ × α))
    (k : κ) : ∀ e ∈ aerase l k, e ∈ l := by
  induction l with
  | nil => simp [aerase]
  | cons e0 rest ih =>
    obtain ⟨k0, v0⟩ := e0
    by_cases hk : k0 = k
    · intro e he
      simp only [aerase, if_pos hk] at he
      exact List.mem_cons_of_mem _ he
    · intro e he
      simp only [aerase, if_neg hk] at he
      rcases List.mem_cons.mp he with rfl | he2
      · exact List.mem_cons_self _ _
      · exact List.mem_cons_of_mem _ (ih e he2)

theorem cacheInv_step (c : CacheM) (op : CacheOp)
    (h1 : c.length ≤ CACHE_SIZE) (h2 : ∀ e ∈ c, e.2.chances ≤ 8) :
    (applyCacheOp c op).length ≤ CACHE_SIZE ∧
    ∀ e ∈ applyCacheOp c op, e.2.chances ≤ 8 := by
  cases op with
  | hasOp i => exact ⟨h1, h2⟩
  | drainOp => simp [applyCacheOp, cacheDrain, CACHE_SIZE]
  | getOp i =>
    simp only [applyCacheOp, cacheGetNode]
    rcases hl : alookup c i with _ | it
    · exact ⟨h1, h2⟩
    · dsimp only
      constructor
      · rw [ainsert_length_present c i _ (by rw [hl]; rfl)]
        exact h1
      · refine ainsert_forall c i _ (fun (x : CacheItemM) => x.chances ≤ 8) h2 ?_
        have hit : it.chances ≤ 8 := h2 (i, it) (alookup_mem c i it hl)
        dsimp only
        split_ifs with hlt <;> omega
  | cacheOp i n =>
    simp only [applyCacheOp, cacheNode]
    by_cases hcap : c.length = CACHE_SIZE
    · rw [if_pos hcap]
      have hne : c ≠ [] := by
        intro h0
        rw [h0] at hcap
        simp [CACHE_SIZE] at hcap
      have hsome : ((findVictim c).1.isSome) :=
        findVictimGo_isSome (chancesSum c + 1) c (by omega) hne
      rcases hv : (findVictim c).1 with _ | v
      · rw [hv] at hsome
        simp at hsome
      · dsimp only
        have hmem : (alookup (findVictim c).2 v).isSome :=
          findVictimGo_some_mem _ c v hv
        have hlen2 : (findVictim c).2.length = c.length :=
          findVictimGo_length _ c
        have hch2 : ∀ e ∈ (findVictim c).2, e.2.chances ≤ 8 :=
          findVictimGo_chances _ c 8 h2
        constructor
        · have he := aerase_length_present (findVictim c).2 v hmem
          have := ainsert_length_le (aerase (findVictim c).2 v) i
            (⟨n, 1⟩ : CacheItemM)
          simp only [CACHE_SIZE] at *
          omega
        · refine ainsert_forall _ i _ (fun (x : CacheItemM) => x.chances ≤ 8) ?_
            (by norm_num)
          intro e he
          exact hch2 e (aerase_subset _ v e he)
    · rw [if_neg hcap]
      constructor
      · have := ainsert_length_le c i (⟨n, 1⟩ : CacheItemM)
        simp only [CACHE_SIZE] at *
        omega
      · exact ainsert_forall c i _ (fun (x : CacheItemM) => x.chances ≤ 8) h2 (by norm_num)

theorem runCacheOps_foldl_inv : ∀ (ops : List CacheOp) (c : CacheM),
    c.length ≤ CACHE_SIZE → (∀ e ∈ c, e.2.chances ≤ 8) →
    (ops.foldl applyCacheOp c).length ≤ CACHE_SIZE ∧
    ∀ e ∈ ops.foldl applyCacheOp c, e.2.chances ≤ 8 := by
  intro ops
  induction ops with
  | nil => intro c h1 h2; exact ⟨h1, h2⟩
  | cons op ops ih =>
    intro c h1 h2
    have hstep := cacheInv_step c op h1 h2
    exact ih (applyCacheOp c op) hstep.1 hstep.2

/-- C7: over every sequence of cache operations starting from the empty
cache, the cache never holds more than `CACHE_SIZE = 4` entries and
every `chances` counter stays at most `8`; `cache_node` installs the
new entry with `chances = 1`, and a `get_node` hit bumps the counter
saturating at `8`. -/
theorem cache_bounds (ops : List CacheOp) :
    ((runCacheOps ops).length ≤ CACHE_SIZE ∧
      ∀ e ∈ runCacheOps ops, e.2.chances ≤ 8) ∧
    (∀ (c : CacheM) (i : Int) (n : NodeInstanceM),
      alookup (cacheNode c i n).2 i = some ⟨n, 1⟩) ∧
    (∀ (c : CacheM) (i : Int) (it : CacheItemM), alookup c i = some it →
      it.chances ≤ 8 →
      alookup (cacheGetNode c i).2 i =
        some ⟨it.node, min (it.chances + 1) 8⟩) := by
  refine ⟨runCacheOps_foldl_inv ops [] (by simp [CACHE_SIZE]) (by simp),
    ?_, ?_⟩
  · intro c i n
    simp only [cacheNode]
    by_cases hcap : c.length = CACHE_SIZE
    · rw [if_pos hcap]
      rcases hv : (findVictim c).1 with _ | v
      · exact alookup_ainsert _ i _
      · exact alookup_ainsert _ i _
    · rw [if_neg hcap]
      exact alookup_ainsert c i _
  · intro c i it hl hb
    simp only [cacheGetNode, hl]
    rw [alookup_ainsert c i _]
    have : (if it.chances < 8 then it.chances + 1 else it.chances) =
        min (it.chances + 1) 8 := by
      split_ifs with h <;> omega
    rw [this]

theorem cache_bounds_witness :
    alookup (cacheGetNode [(1, ⟨.leaf ⟨[5], [6], 1⟩, 3⟩)] 1).2 1 =
      some ⟨.leaf ⟨[5], [6], 1⟩, 4⟩ :=
  (cache_bounds []).2.2 [(1, ⟨.leaf ⟨[5], [6], 1⟩, 3⟩)] 1
    ⟨.leaf ⟨[5], [6], 1⟩, 3⟩ (by decide) (by decide)

theorem sweep_first_zero : ∀ (pre : CacheM) (id : Int) (it : CacheItemM)
    (post : CacheM), it.chances = 0 → (∀ e ∈ pre, e.2.chances ≠ 0) →
    sweep (pre ++ (id, it) :: post) =
      (some id, pre.map decChance ++ (id, it) :: post) := by
  intro pre
  induction pre with
  | nil =>
    intro id it post h0 _
    simp [sweep, h0]
  | cons e pre ih =>
    intro id it post h0 hpre
    obtain ⟨k0, it0⟩ := e
    have hpos : it0.chances > 0 := by
      have h' : it0.chances ≠ 0 := by
        simpa using hpre (k0, it0) (List.mem_cons_self _ _)
      omega
    have ihr := ih id it post h0
      (fun e he => hpre e (List.mem_cons_of_mem _ he))
    simp only [List.cons_append, sweep, if_pos hpos]
    rw [show pre.append ((id, it) :: post) = pre ++ (id, it) :: post from rfl,
      ihr]
    simp [decChance]

theorem sweep_all_pos : ∀ (c : CacheM), (∀ e ∈ c, e.2.chances ≠ 0) →
    sweep c = (none, c.map decChance) := by
  intro c
  induction c with
  | nil => intro _; rfl
  | cons e rest ih =>
    intro h
    obtain ⟨k0, it0⟩ := e
    have hpos : it0.chances > 0 := by
      have h' : it0.chances ≠ 0 := by
        simpa using h (k0, it0) (List.mem_cons_self _ _)
      omega
    have ihr := ih (fun e he => h e (List.mem_cons_of_mem _ he))
    simp only [sweep, if_pos hpos]
    rw [ihr]
    simp [decChance]

/-- C8: the second-chance victim-selection loop always terminates with
a victim on a non-empty cache; each sweep decrements the positive
counters it passes and stops at the first entry whose counter is zero,
returning it as the victim; at capacity, `cache_node` removes that
victim and returns it as the evicted entry. -/
theorem second_chance_terminates :
    (∀ c : CacheM, c ≠ [] → ((findVictim c).1.isSome)) ∧
    (∀ (pre post : CacheM) (id : Int) (it : CacheItemM),
      it.chances = 0 → (∀ e ∈ pre, e.2.chances ≠ 0) →
      sweep (pre ++ (id, it) :: post) =
        (some id, pre.map decChance ++ (id, it) :: post)) ∧
    (∀ c : CacheM, (∀ e ∈ c, e.2.chances ≠ 0) →
      sweep c = (none, c.map decChance)) ∧
    (∀ (c : CacheM) (i : Int) (n : NodeInstanceM), c.length = CACHE_SIZE →
      ∃ v node2, (findVictim c).1 = some v ∧
        (cacheNode c i n).1 = some (v, node2)) := by
  refine ⟨?_, ?_, ?_, ?_⟩
  · intro c hne
    exact findVictimGo_isSome (chancesSum c + 1) c (by omega) hne
  · intro pre post id it h0 hpre
    exact sweep_first_zero pre id it post h0 hpre
  · intro c h
    exact sweep_all_pos c h
  · intro c i n hcap
    have hne : c ≠ [] := by
      intro h0
      rw [h0] at hcap
      simp [CACHE_SIZE] at hcap
    have hsome : ((findVictim c).1.isSome) :=
      findVictimGo_isSome (chancesSum c + 1) c (by omega) hne
    rcases hv : (findVictim c).1 with _ | v
    · rw [hv] at hsome
      simp at hsome
    · have hmem : (alookup (findVictim c).2 v).isSome :=
        findVictimGo_some_mem _ c v hv
      rcases hit : alookup (findVictim c).2 v with _ | it
      · rw [hit] at hmem
        simp at hmem
      · refine ⟨v, it.node, rfl, ?_⟩
        simp only [cacheNode, if_pos hcap]
        rw [hv]
        simp [hit]

theorem second_chance_terminates_witness :
    ((findVictim [(1, ⟨.leaf ⟨[1], [1], 1⟩, 1⟩),
      (2, ⟨.leaf ⟨[2], [2], 1⟩, 0⟩)]).1.isSome) ∧
    sweep [(1, ⟨.leaf ⟨[1], [1], 1⟩, 1⟩), (2, ⟨.leaf ⟨[2], [2], 1⟩, 0⟩)] =
      (some 2, [(1, ⟨.leaf ⟨[1], [1], 1⟩, 0⟩),
        (2, ⟨.leaf ⟨[2], [2], 1⟩, 0⟩)]) :=
  ⟨second_chance_terminates.1 _ (by decide),
   second_chance_terminates.2.1 [(1, ⟨.leaf ⟨[1], [1], 1⟩, 1⟩)]
     [] 2 ⟨.leaf ⟨[2], [2], 1⟩, 0⟩ (by decide) (by decide)⟩

theorem natToLeBytes_length (w : Nat) : ∀ v, (natToLeBytes w v).length = w := by
  induction w with
  | zero => intro v; rfl
  | succ w ih =>
    intro v
    simp only [natToLeBytes, List.length_cons, ih]

theorem leBytesToNat_natToLeBytes (w : Nat) : ∀ v, v < 256 ^ w →
    leBytesToNat (natToLeBytes w v) = v := by
  induction w with
  | zero =>
    intro v hv
    simp only [pow_zero, Nat.lt_one_iff] at hv
    simp [natToLeBytes, leBytesToNat, hv]
  | succ w ih =>
    intro v hv
    have hdiv : v / 256 < 256 ^ w := by
      rw [Nat.div_lt_iff_lt_mul (by norm_num)]
      calc v < 256 ^ (w + 1) := hv
        _ = 256 ^ w * 256 := by ring
    simp only [natToLeBytes, leBytesToNat, ih (v / 256) hdiv]
    omega

theorem intToLeBytes_length (w : Nat) (v : Int) :
    (intToLeBytes w v).length = w := by
  simp [intToLeBytes, natToLeBytes_length]

theorem pow256_eq (w : Nat) : (256 : Nat) ^ w = 2 ^ (8 * w) := by
  rw [show (256 : Nat) = 2 ^ 8 from rfl, ← pow_mul]

theorem leBytesToInt_intToLeBytes (w : Nat) (hw : 1 ≤ w) (v : Int)
    (h1 : -(2 ^ (8 * w - 1)) ≤ v) (h2 : v < 2 ^ (8 * w - 1)) :
    leBytesToInt w (intToLeBytes w v) = v := by
  have hc1 : ((2 ^ (8 * w - 1) : Nat) : Int) = 2 ^ (8 * w - 1) := by
    push_cast
    rfl
  have hc2 : ((2 ^ (8 * w) : Nat) : Int) = 2 ^ (8 * w) := by
    push_cast
    rfl
  have hhalfN : (2 : Nat) ^ (8 * w - 1) + 2 ^ (8 * w - 1) = 2 ^ (8 * w) := by
    have he : 8 * w - 1 + 1 = 8 * w := by omega
    calc (2 : Nat) ^ (8 * w - 1) + 2 ^ (8 * w - 1)
        = 2 ^ (8 * w - 1 + 1) := by ring
      _ = 2 ^ (8 * w) := by rw [he]
  rcases le_or_lt 0 v with hpos | hneg
  · have hmod : v.emod (2 ^ (8 * w)) = v :=
      Int.emod_eq_of_lt hpos (by omega)
    have htn : (v.emod (2 ^ (8 * w))).toNat < 256 ^ w := by
      rw [hmod, pow256_eq]
      omega
    simp only [leBytesToInt, intToLeBytes,
      leBytesToNat_natToLeBytes w _ htn]
    rw [hmod, if_pos (by omega)]
    omega
  · have hmod : v.emod (2 ^ (8 * w)) = v + 2 ^ (8 * w) := by
      have hself : (v + 2 ^ (8 * w)) % (2 ^ (8 * w)) = v % (2 ^ (8 * w)) :=
        Int.add_emod_self
      have hred : (v + 2 ^ (8 * w)).emod (2 ^ (8 * w)) = v + 2 ^ (8 * w) :=
        Int.emod_eq_of_lt (by omega) (by omega)
      calc v.emod (2 ^ (8 * w)) = v % (2 ^ (8 * w)) := rfl
        _ = (v + 2 ^ (8 * w)) % (2 ^ (8 * w)) := hself.symm
        _ = v + 2 ^ (8 * w) := hred
    have htn : (v.emod (2 ^ (8 * w))).toNat < 256 ^ w := by
      rw [hmod, pow256_eq]
      omega
    simp only [leBytesToInt, intToLeBytes,
      leBytesToNat_natToLeBytes w _ htn]
    rw [hmod, if_neg (by omega)]
    omega

theorem flatMap_intToLeBytes_length (w : Nat) (ks : List Int) :
    (ks.flatMap (intToLeBytes w)).length = w * ks.length := by
  induction ks with
  | nil => simp
  | cons k ks ih =>
    simp only [List.flatMap_cons, List.length_append, ih,
      intToLeBytes_length, List.length_cons]
    ring

theorem readChunks_flatMap (w : Nat) (hw : 1 ≤ w) :
    ∀ (ks : List Int) (rest : List Nat),
    (∀ k ∈ ks, -(2 ^ (8 * w - 1)) ≤ k ∧ k < 2 ^ (8 * w - 1)) →
    readChunks w ks.length (ks.flatMap (intToLeBytes w) ++ rest) = ks := by
  intro ks
  induction ks with
  | nil => intro rest _; rfl
  | cons k ks ih =>
    intro rest h
    have hk := h k (List.mem_cons_self _ _)
    simp only [List.flatMap_cons, List.length_cons, readChunks,
      List.append_assoc]
    rw [List.take_left' (intToLeBytes_length w k),
      List.drop_left' (intToLeBytes_length w k),
      leBytesToInt_intToLeBytes w hw k hk.1 hk.2,
      ih rest (fun k2 hk2 => h k2 (List.mem_cons_of_mem _ hk2))]

theorem leadingNonzero_eq (keys : List Int) : ∀ (size : Nat),
    size ≤ keys.length →
    (∀ i, i < size → keys.getD i 0 ≠ 0) →
    (size < keys.length → keys.getD size 0 = 0) →
    leadingNonzero keys = size := by
  induction keys with
  | nil =>
    intro size hle _ _
    simp only [List.length_nil, Nat.le_zero] at hle
    rw [hle]
    rfl
  | cons k ks ih =>
    intro size hle hnz hz
    cases size with
    | zero =>
      have hk : k = 0 := by
        have := hz (by simp)
        simpa using this
      simp [leadingNonzero, hk]
    | succ s =>
      have hk : k ≠ 0 := by
        have := hnz 0 (by omega)
        simpa using this
      simp only [leadingNonzero, if_pos hk]
      rw [ih s (by simpa using hle) ?_ ?_]
      · intro i hi
        have := hnz (i + 1) (by omega)
        simpa using this
      · intro hlt
        have := hz (by simpa using Nat.succ_lt_succ hlt)
        simpa using this

theorem codec_lists (S : Nat) (a b : List Int) (pad : List Nat)
    (h1 : a.length = S) (h2 : b.length = S)
    (h6 : ∀ k ∈ a, -(2 ^ (8 * 8 - 1)) ≤ k ∧ k < 2 ^ (8 * 8 - 1))
    (h7 : ∀ c ∈ b, -(2 ^ (8 * 4 - 1)) ≤ c ∧ c < 2 ^ (8 * 4 - 1)) :
    readChunks 8 S
      ((a.flatMap (intToLeBytes 8) ++ b.flatMap (intToLeBytes 4)) ++ pad) =
      a ∧
    readChunks 4 S
      (((a.flatMap (intToLeBytes 8) ++ b.flatMap (intToLeBytes 4)) ++
        pad).drop (8 * S)) = b := by
  constructor
  · rw [List.append_assoc, ← h1]
    exact readChunks_flatMap 8 (by norm_num) a _ h6
  · rw [List.append_assoc,
      List.drop_left' (by rw [flatMap_intToLeBytes_length, h1]), ← h2]
    exact readChunks_flatMap 4 (by norm_num) b _ h7

/-- C9 counterexample: the leaf `keys = [5, 7]`, `size = 1` has all its
live entries (just `5`) non-zero, yet decoding its encoding recovers
`size = 2` (the stale `7` past the live prefix counts as live), so
`decode(encode(n)) ≠ n` and the claim as stated fails. -/
theorem codec_roundtrip_counterexample :
    (∀ k ∈ (⟨[5, 7], [3, 4], 1⟩ : LeafN).keys.take
      (⟨[5, 7], [3, 4], 1⟩ : LeafN).size, k ≠ 0) ∧
    leafFromBytes 2 (leafToBytes ⟨[5, 7], [3, 4], 1⟩) =
      ⟨[5, 7], [3, 4], 2⟩ ∧
    leafFromBytes 2 (leafToBytes ⟨[5, 7], [3, 4], 1⟩) ≠
      (⟨[5, 7], [3, 4], 1⟩ : LeafN) := by
  refine ⟨by decide, by decide, by decide⟩

/-- C9 (amended): decode∘encode is the identity on inner and leaf nodes
whose arrays have length `S` (with `12 * S ≤ BLOCK_SIZE`, as all blocks
must fit), whose entries are in machine-integer range, whose live
entries avoid the sentinel `0`, and whose first slot past the live
prefix (if any) holds `0` — the last condition is what the claim as
stated omits and the counterexample exploits; `size` is recovered as
the count of leading non-zero key entries. -/
theorem codec_roundtrip_amended (S : Nat) (_hS : 12 * S ≤ BLOCK_SIZE)
    (n : InnerN) (l : LeafN)
    (hn1 : n.separators.length = S) (hn2 : n.children.length = S)
    (hn3 : n.size ≤ S)
    (hn4 : ∀ i, i < n.size → n.separators.getD i 0 ≠ 0)
    (hn5 : n.size < S → n.separators.getD n.size 0 = 0)
    (hn6 : ∀ k ∈ n.separators, -(2 ^ 63) ≤ k ∧ k < 2 ^ 63)
    (hn7 : ∀ c ∈ n.children, -(2 ^ 31) ≤ c ∧ c < 2 ^ 31)
    (hl1 : l.keys.length = S) (hl2 : l.data_blocks.length = S)
    (hl3 : l.size ≤ S)
    (hl4 : ∀ i, i < l.size → l.keys.getD i 0 ≠ 0)
    (hl5 : l.size < S → l.keys.getD l.size 0 = 0)
    (hl6 : ∀ k ∈ l.keys, -(2 ^ 63) ≤ k ∧ k < 2 ^ 63)
    (hl7 : ∀ c ∈ l.data_blocks, -(2 ^ 31) ≤ c ∧ c < 2 ^ 31) :
    innerFromBytes S (innerToBytes n) = n ∧
    leafFromBytes S (leafToBytes l) = l := by
  constructor
  · obtain ⟨seps, children, size⟩ := n
    simp only at hn1 hn2 hn3 hn4 hn5 hn6 hn7
    have hc := codec_lists S seps children
      (List.replicate (BLOCK_SIZE - (seps.flatMap (intToLeBytes 8) ++
        children.flatMap (intToLeBytes 4)).length) 0) hn1 hn2
      (by intro k hk; simpa using hn6 k hk)
      (by intro c hc; simpa using hn7 c hc)
    simp only [innerFromBytes, innerToBytes]
    rw [hc.1, hc.2, leadingNonzero_eq seps size (by omega) hn4
      (by intro h; exact hn5 (by omega))]
  · obtain ⟨keys, data_blocks, size⟩ := l
    simp only at hl1 hl2 hl3 hl4 hl5 hl6 hl7
    have hc := codec_lists S keys data_blocks
      (List.replicate (BLOCK_SIZE - (keys.flatMap (intToLeBytes 8) ++
        data_blocks.flatMap (intToLeBytes 4)).length) 0) hl1 hl2
      (by intro k hk; simpa using hl6 k hk)
      (by intro c hc; simpa using hl7 c hc)
    simp only [leafFromBytes, leafToBytes]
    rw [hc.1, hc.2, leadingNonzero_eq keys size (by omega) hl4
      (by intro h; exact hl5 (by omega))]

theorem codec_roundtrip_amended_witness :
    innerFromBytes 2 (innerToBytes ⟨[5, 0], [2, 3], 1⟩) =
      (⟨[5, 0], [2, 3], 1⟩ : InnerN) ∧
    leafFromBytes 2 (leafToBytes ⟨[7, 0], [3, 0], 1⟩) =
      (⟨[7, 0], [3, 0], 1⟩ : LeafN) :=
  codec_roundtrip_amended 2 (by decide) ⟨[5, 0], [2, 3], 1⟩
    ⟨[7, 0], [3, 0], 1⟩ (by decide) (by decide) (by decide) (by decide)
    (by decide) (by decide) (by decide) (by decide) (by decide) (by decide)
    (by decide) (by decide) (by decide) (by decide)


/-- C2 (failing-input evaluation): a cache-miss `get_node` at full
cache evicts leaf 1; when the underlying write works, the victim is
encoded and written at block `|1|` before the handle is returned
(first conjunct) — but when the write fails, `get_node` still returns
`Ok` and the file is unchanged (second conjunct): the `Result` of the
eviction `set_block` is discarded at src/types/file_store.rs:243 and
247, so the failure is silently ignored, neither surfaced as an error
nor escalated to an abort, contrary to the claim. -/
theorem eviction_write_failure_ignored :
    (fileGetNode 2 true
        ⟨[(5, leafToBytes ⟨[7, 0], [3, 0], 1⟩)], 5,
         [(1, ⟨.leaf ⟨[1, 0], [11, 0], 1⟩, 0⟩),
          (2, ⟨.leaf ⟨[2, 0], [12, 0], 1⟩, 0⟩),
          (3, ⟨.leaf ⟨[3, 0], [13, 0], 1⟩, 0⟩),
          (4, ⟨.leaf ⟨[4, 0], [14, 0], 1⟩, 0⟩)]⟩ 5).map
      (fun p => (p.1, p.2.file)) =
      some (.ok (.leaf ⟨[7, 0], [3, 0], 1⟩),
        [(5, leafToBytes ⟨[7, 0], [3, 0], 1⟩),
         (1, leafToBytes ⟨[1, 0], [11, 0], 1⟩)]) ∧
    (fileGetNode 2 false
        ⟨[(5, leafToBytes ⟨[7, 0], [3, 0], 1⟩)], 5,
         [(1, ⟨.leaf ⟨[1, 0], [11, 0], 1⟩, 0⟩),
          (2, ⟨.leaf ⟨[2, 0], [12, 0], 1⟩, 0⟩),
          (3, ⟨.leaf ⟨[3, 0], [13, 0], 1⟩, 0⟩),
          (4, ⟨.leaf ⟨[4, 0], [14, 0], 1⟩, 0⟩)]⟩ 5).map
      (fun p => (p.1, p.2.file)) =
      some (.ok (.leaf ⟨[7, 0], [3, 0], 1⟩),
        [(5, leafToBytes ⟨[7, 0], [3, 0], 1⟩)]) := by
  constructor <;> rfl

end BTreeRs
